import Mathlib

/-!
Verification of the crossword CSP solver (`generate.py`).

The Python class `CrosswordCreator` holds a puzzle description
(`self.crossword`, an external collaborator providing variables, word list,
a pairwise overlap table and a neighbor query) plus a mutable domain store
(`self.domains`).  We embed the puzzle description as a `Crossword` record,
the domain store as a function `V → List Word`, and the (insertion-ordered)
Python dict `assignment` as an association list.  Loops that are not
structurally recursive (the AC-3 work queue, the backtracking recursion)
take an explicit fuel argument; an outer `none` result means "out of fuel /
undefined", which never corresponds to a Python return value.
-/

namespace CrosswordGen

/-- A candidate word, as its list of characters. -/
abbrev Word := List Char

/-- Modelled from the spec: the Puzzle Model collaborator (class `Crossword`
is not part of the sources).  It provides the set of variables (here a list,
fixing one iteration order for the Python sets), each variable's slot
length, the universal word list, and the symmetric overlap table mapping an
ordered pair of distinct variables to `none` (no shared cell) or to the
index pair of the shared character. -/
structure Crossword (V : Type) where
  vars : List V
  varLength : V → Nat
  words : List Word
  overlaps : V → V → Option (Nat × Nat)

/-- The mutable Domain Store `self.domains`. -/
abbrev Domains (V : Type) := V → List Word

variable {V : Type} [DecidableEq V]

/-- Modelled from the spec: the neighbor query of the Puzzle Model —
all variables that overlap the given variable. -/
def neighbors (cw : Crossword V) (v : V) : List V :=
  cw.vars.filter (fun u => decide (u ≠ v) && (cw.overlaps v u).isSome)

/-- `self.domains` right after `__init__`: every variable maps to a copy of
the full word list. -/
def initialDomains (cw : Crossword V) : Domains V :=
  fun _ => cw.words

/-- Dict lookup `assignment[var]` / `var in assignment` (ordered dict as
association list). -/
def alistGet : List (V × Word) → V → Option Word
  | [], _ => none
  | p :: ps, v => if p.1 = v then some p.2 else alistGet ps v

/-- Dict update `assignment[var] = val`: updates in place, or appends. -/
def alistSet : List (V × Word) → V → Word → List (V × Word)
  | [], v, w => [(v, w)]
  | p :: ps, v, w => if p.1 = v then (v, w) :: ps else p :: alistSet ps v w

/-- Dict deletion `del assignment[var]`. -/
def alistDel : List (V × Word) → V → List (V × Word)
  | [], _ => []
  | p :: ps, v => if p.1 = v then alistDel ps v else p :: alistDel ps v

/-- The character comparison `word[i] == word_y[j]` performed at an overlap
(total model of Python string indexing). -/
def agreeAt (i j : Nat) (wx wy : Word) : Bool :=
  wx.getD i ' ' == wy.getD j ' '

/-- `word` has some supporting word in the list `ws` at overlap `(i, j)`
(the inner loop of `revise`). -/
def supportedBy (ws : List Word) (i j : Nat) (w : Word) : Bool :=
  ws.any (fun wy => agreeAt i j w wy)

/-- `enforce_node_consistency`: for each variable keep only the words of
its exact length (`generate.py` lines 96–107). -/
def enforce_node_consistency (cw : Crossword V) (dom : Domains V) : Domains V :=
  cw.vars.foldl
    (fun d var => Function.update d var
      ((d var).filter (fun w => w.length == cw.varLength var)))
    dom

/-- `revise(x, y)` (`generate.py` lines 109–143): if `x` and `y` do not
overlap, return `False` and leave the store unchanged; otherwise rebuild
`domains[x]` from the words supported by `domains[y]`, the flag being set
iff some word was dropped.  Returns (flag, new store). -/
def revise (cw : Crossword V) (dom : Domains V) (x y : V) : Bool × Domains V :=
  match cw.overlaps x y with
  | none => (false, dom)
  | some (xi, yi) =>
    ((dom x).any (fun w => ! supportedBy (dom y) xi yi w),
     Function.update dom x ((dom x).filter (supportedBy (dom y) xi yi)))

/-- The `while` loop of `ac3` (`generate.py` lines 162–171), with explicit
fuel.  The queue is popped at the front; on a revision that empties a
domain the function returns `False` early, otherwise the arcs `(z, x)` for
the neighbors `z ≠ y` of `x` are appended.  The result carries the Python
return value (`some true` / `some false`; an inner `none` would be a Python
`None`, which no return site produces), the final domain store, and the
final state of the worklist. -/
def ac3Loop : Nat → Crossword V → Domains V → List (V × V) →
    Option (Option Bool × Domains V × List (V × V))
  | 0, _, _, _ => none
  | fuel + 1, cw, dom, arcs =>
    match arcs with
    | [] => some (some true, dom, [])
    | (x, y) :: rest =>
      let r := revise cw dom x y
      if r.1 then
        if (r.2 x).length = 0 then some (some false, r.2, rest)
        else ac3Loop fuel cw r.2
          (rest ++ (((neighbors cw x).filter (fun z => z ≠ y)).map (fun z => (z, x))))
      else ac3Loop fuel cw r.2 rest

/-- Modelled from the spec: the initial worklist of a full pass — "every
overlapping ordered pair of variables" (the Python code iterates the keys
of the Puzzle Model's overlap table). -/
def initialArcs (cw : Crossword V) : List (V × V) :=
  (cw.vars.product cw.vars).filter
    (fun p => decide (p.1 ≠ p.2) && (cw.overlaps p.1 p.2).isSome)

/-- `assignment_complete` (`generate.py` lines 173–183): every variable is
assigned a word of positive length. -/
def assignment_complete (cw : Crossword V) (asg : List (V × Word)) : Bool :=
  cw.vars.all (fun var =>
    match alistGet asg var with
    | none => false
    | some w => decide (0 < w.length))

/-- Check whether a list has no duplicates (the
`len(all_values) != len(set(all_values))` test of `consistent`). -/
def nodupB : List Word → Bool
  | [] => true
  | w :: ws => (! ws.contains w) && nodupB ws

/-- `consistent` (`generate.py` lines 185–206): every assigned word has its
variable's length, assigned overlapping neighbors agree at the recorded
overlap indices, and all assigned words are pairwise distinct. -/
def consistentB (cw : Crossword V) (asg : List (V × Word)) : Bool :=
  (asg.all (fun p =>
    (p.2.length == cw.varLength p.1) &&
    ((neighbors cw p.1).all (fun nb =>
      match cw.overlaps p.1 nb with
      | none => true  -- impossible for a neighbor
      | some (i, j) =>
        match alistGet asg nb with
        | none => true
        | some wnb => agreeAt i j p.2 wnb))))
  && nodupB (asg.map Prod.snd)

/-- Stable insertion into a list sorted ascending by `k`: a new element goes
in front of the elements with an equal key, which in the fold below are
exactly the elements that followed it in the input, matching Python's
stable `sorted`. -/
def insertByKey (k : α → Nat) (x : α) : List α → List α
  | [] => [x]
  | y :: ys => if k x ≤ k y then x :: y :: ys else y :: insertByKey k x ys

/-- Python's stable `sorted(l, key=k)`. -/
def sortByKey (k : α → Nat) (l : List α) : List α :=
  l.foldr (insertByKey k) []

/-- Number of neighbor words a candidate word would rule out, over the
unassigned neighbors (inner loops of `order_domain_values`). -/
def ruledOut (cw : Crossword V) (dom : Domains V) (asg : List (V × Word))
    (var : V) (w : Word) : Nat :=
  ((neighbors cw var).map (fun nb =>
    if (alistGet asg nb).isSome then 0
    else match cw.overlaps var nb with
      | none => 0  -- impossible for a neighbor
      | some (i, j) => (dom nb).countP (fun nw => ! agreeAt i j w nw))).sum

/-- `order_domain_values` (`generate.py` lines 208–228): the candidate
words of `var` sorted ascending by the number of neighbor words they rule
out. -/
def order_domain_values (cw : Crossword V) (dom : Domains V)
    (asg : List (V × Word)) (var : V) : List Word :=
  sortByKey (ruledOut cw dom asg var) (dom var)

/-- The `(var, len(domains[var]))` pairs of the unassigned variables, in
variable order (`domain_val_count` of `select_unassigned_variable`). -/
def unassignedCounts (cw : Crossword V) (dom : Domains V)
    (asg : List (V × Word)) : List (V × Nat) :=
  (cw.vars.filter (fun v => (alistGet asg v).isNone)).map
    (fun v => (v, (dom v).length))

/-- `select_unassigned_variable` (`generate.py` lines 230–261): sort the
unassigned variables by domain size, keep the prefix tied with the least
size, and if several are tied return the first after sorting them by
neighbor count ascending.  `none` models the `IndexError` raised when no
variable is unassigned. -/
def select_unassigned_variable (cw : Crossword V) (dom : Domains V)
    (asg : List (V × Word)) : Option V :=
  let sortedVars := sortByKey (fun p => p.2) (unassignedCounts cw dom asg)
  match sortedVars with
  | [] => none
  | p0 :: _ =>
    let tied := sortedVars.takeWhile (fun p => p.2 == p0.2)
    if tied.length = 1 then some p0.1
    else
      match sortByKey (fun p => (neighbors cw p.1).length) tied with
      | [] => none  -- unreachable: `tied` contains `p0`
      | q :: _ => some q.1

mutual
/-- `backtrack` (`generate.py` lines 263–294), with fuel.  The result is
`some (ret, asg, dom)` where `ret` is the Python return value (`none` for
Python `None`) and `asg`, `dom` are the final states of the caller-shared
assignment dict and domain store; an outer `none` means out of fuel or a
Python exception. -/
def backtrack (fuel : Nat) (cw : Crossword V) (dom : Domains V)
    (asg : List (V × Word)) :
    Option (Option (List (V × Word)) × List (V × Word) × Domains V) :=
  match fuel with
  | 0 => none
  | fuel + 1 =>
    if assignment_complete cw asg then some (some asg, asg, dom)
    else
      match select_unassigned_variable cw dom asg with
      | none => none
      | some var => btLoop fuel cw dom asg var (order_domain_values cw dom asg var)

/-- The `for val in self.order_domain_values(...)` loop of `backtrack`.
Each iteration sets `assignment[var] = val`; if `consistent` fails the
entry is deleted again; otherwise `ac3` is run seeded with `(nb, var)` for
the neighbors of `var`, the dead `is None` guard is checked, and the search
recurses, threading through whatever state the recursive call left. -/
def btLoop (fuel : Nat) (cw : Crossword V) (dom : Domains V)
    (asg : List (V × Word)) (var : V) (vals : List Word) :
    Option (Option (List (V × Word)) × List (V × Word) × Domains V) :=
  match fuel with
  | 0 => none
  | fuel + 1 =>
    match vals with
    | [] => some (none, asg, dom)
    | val :: rest =>
      let asg1 := alistSet asg var val
      if consistentB cw asg1 then
        match ac3Loop (fuel + 1) cw dom ((neighbors cw var).map (fun nb => (nb, var))) with
        | none => none
        | some (r, dom1, _) =>
          if r = none then some (none, alistDel asg1 var, dom1)
          else
            match backtrack fuel cw dom1 asg1 with
            | none => none
            | some (some res, asg2, dom2) => some (some res, asg2, dom2)
            | some (none, asg2, dom2) => btLoop fuel cw dom2 asg2 var rest
      else btLoop fuel cw dom (alistDel asg1 var) var rest
end

/-- `solve` (`generate.py` lines 88–94): node consistency, a full AC-3 pass
whose boolean result is discarded, then backtracking from the empty
assignment. -/
def solve (fuel : Nat) (cw : Crossword V) :
    Option (Option (List (V × Word)) × List (V × Word) × Domains V) :=
  let dom1 := enforce_node_consistency cw (initialDomains cw)
  match ac3Loop fuel cw dom1 (initialArcs cw) with
  | none => none
  | some (_, dom2, _) => backtrack fuel cw dom2 []

/-! ### Concrete instances used by counterexamples and witnesses -/

/-- Two overlapping slots of length 2: slot 0's index 1 must equal
slot 1's index 0. -/
def cwPair : Crossword (Fin 2) where
  vars := [0, 1]
  varLength := fun _ => 2
  words := ["ab".toList, "xy".toList]
  overlaps := fun x y =>
    if x = 0 ∧ y = 1 then some (1, 0)
    else if x = 1 ∧ y = 0 then some (0, 1)
    else none

/-- Domains for `cwPair` in which slot 1 has no support: `"xy"` does not
start with `'b'`. -/
def domPair : Domains (Fin 2) :=
  fun v => if v = 0 then ["ab".toList] else ["xy".toList]

/-- Domains for `cwPair` in which both slots support each other
(`"ab"[1] = 'b' = "bc"[0]`). -/
def domOk : Domains (Fin 2) :=
  fun v => if v = 0 then ["ab".toList] else ["bc".toList]

/-- Three slots; only 1 and 2 overlap, so slot 0 has degree 0 and slots 1, 2
have degree 1.  Slots 0 and 1 are tied on the minimal domain size. -/
def cwTriple : Crossword (Fin 3) where
  vars := [0, 1, 2]
  varLength := fun _ => 2
  words := ["aa".toList, "bb".toList, "cc".toList, "dd".toList]
  overlaps := fun x y =>
    if x = 1 ∧ y = 2 then some (0, 0)
    else if x = 2 ∧ y = 1 then some (0, 0)
    else none

/-- Domains for `cwTriple`: slots 0 and 1 tied with one word, slot 2 has two. -/
def domTriple : Domains (Fin 3) :=
  fun v => if v = 0 then ["aa".toList]
    else if v = 1 then ["bb".toList]
    else ["cc".toList, "dd".toList]

/-- A single isolated slot of length 5 while the word list has no word of
length 5. -/
def cwIso : Crossword (Fin 1) where
  vars := [0]
  varLength := fun _ => 5
  words := ["ab".toList]
  overlaps := fun _ _ => none

/-- The spec scenario: two slots of length 3 agreeing at index 1 of both,
word list {AAA, ABA, BBB}. -/
def cwSpec : Crossword (Fin 2) where
  vars := [0, 1]
  varLength := fun _ => 3
  words := ["AAA".toList, "ABA".toList, "BBB".toList]
  overlaps := fun x y => if x = y then none else some (1, 1)

/-! ### Basic lemmas -/

theorem mem_neighbors {cw : Crossword V} {u v : V} :
    u ∈ neighbors cw v ↔ u ∈ cw.vars ∧ u ≠ v ∧ (cw.overlaps v u).isSome = true := by
  simp [neighbors, List.mem_filter]

theorem alistGet_mem {asg : List (V × Word)} {v : V} {w : Word}
    (h : alistGet asg v = some w) : (v, w) ∈ asg := by
  induction asg with
  | nil => simp [alistGet] at h
  | cons p ps ih =>
    by_cases hp : p.1 = v
    · simp only [alistGet, hp, if_pos, Option.some.injEq] at h
      have hpw : p = (v, w) := by
        obtain ⟨a, b⟩ := p
        simp only at hp h
        rw [hp, h]
      rw [← hpw]
      exact List.mem_cons_self _ _
    · simp only [alistGet, hp, if_neg, not_false_iff] at h
      exact List.mem_cons_of_mem _ (ih h)

theorem nodupB_iff {l : List Word} : nodupB l = true ↔ l.Nodup := by
  induction l with
  | nil => simp [nodupB]
  | cons w ws ih => simp [nodupB, ih, List.elem_iff]

/-! ### Lemmas about `revise` -/

theorem revise_none {cw : Crossword V} {dom : Domains V} {x y : V}
    (h : cw.overlaps x y = none) : revise cw dom x y = (false, dom) := by
  simp [revise, h]

theorem revise_some {cw : Crossword V} {dom : Domains V} {x y : V} {i j : Nat}
    (h : cw.overlaps x y = some (i, j)) :
    revise cw dom x y =
      ((dom x).any (fun w => ! supportedBy (dom y) i j w),
       Function.update dom x ((dom x).filter (supportedBy (dom y) i j))) := by
  simp [revise, h]

theorem revise_false_snd {cw : Crossword V} {dom : Domains V} {x y : V}
    (h : (revise cw dom x y).1 = false) : (revise cw dom x y).2 = dom := by
  cases hov : cw.overlaps x y with
  | none => rw [revise_none hov]
  | some p =>
    obtain ⟨i, j⟩ := p
    rw [revise_some hov] at h ⊢
    simp only [List.any_eq_false, Bool.not_eq_true'] at h
    rw [List.filter_eq_self.mpr (fun a ha => Bool.ne_false_iff.mp (h a ha)),
      Function.update_eq_self]

theorem revise_snd_le {cw : Crossword V} {dom : Domains V} {x y : V} (v : V) :
    ((revise cw dom x y).2 v).length ≤ (dom v).length := by
  cases hov : cw.overlaps x y with
  | none => rw [revise_none hov]
  | some p =>
    obtain ⟨i, j⟩ := p
    rw [revise_some hov]
    by_cases hv : v = x
    · subst hv; simp [List.length_filter_le]
    · simp [Function.update_apply, hv]

theorem revise_true_lt {cw : Crossword V} {dom : Domains V} {x y : V}
    (h : (revise cw dom x y).1 = true) :
    ((revise cw dom x y).2 x).length < (dom x).length := by
  cases hov : cw.overlaps x y with
  | none => rw [revise_none hov] at h; simp at h
  | some p =>
    obtain ⟨i, j⟩ := p
    rw [revise_some hov] at h ⊢
    simp only [List.any_eq_true, Bool.not_eq_true'] at h
    obtain ⟨w, hw, hsup⟩ := h
    simp only [Function.update_same]
    refine List.length_filter_lt_length_iff_exists.mpr ?_
    exact ⟨w, hw, by simp [hsup]⟩

/-! ### Node consistency -/

theorem enforce_fold_apply (cw : Crossword V) (vs : List V) (dom : Domains V) (v : V) :
    (vs.foldl (fun d var => Function.update d var
        ((d var).filter (fun w => w.length == cw.varLength var))) dom) v
      = if v ∈ vs then (dom v).filter (fun w => w.length == cw.varLength v)
        else dom v := by
  induction vs generalizing dom with
  | nil => simp
  | cons x xs ih =>
    simp only [List.foldl_cons, ih, Function.update_apply]
    by_cases hv : v = x
    · subst hv
      by_cases hmem : v ∈ xs
      · simp only [hmem, if_pos, if_true, List.mem_cons, true_or]
        refine List.filter_eq_self.mpr ?_
        intro w hw
        exact (List.mem_filter.mp hw).2
      · simp [hmem]
    · simp [hv, List.mem_cons, Ne.symm hv]

theorem enforce_apply (cw : Crossword V) (dom : Domains V) (v : V) :
    enforce_node_consistency cw dom v
      = if v ∈ cw.vars then (dom v).filter (fun w => w.length == cw.varLength v)
        else dom v :=
  enforce_fold_apply cw cw.vars dom v

/-- **C8.** `enforce_node_consistency` is idempotent: running it twice
yields exactly the domains of running it once. -/
theorem c8_enforce_idempotent (cw : Crossword V) (dom : Domains V) :
    enforce_node_consistency cw (enforce_node_consistency cw dom)
      = enforce_node_consistency cw dom := by
  funext v
  rw [enforce_apply, enforce_apply]
  by_cases hv : v ∈ cw.vars
  · simp only [hv, if_true]
    refine List.filter_eq_self.mpr ?_
    intro w hw
    exact (List.mem_filter.mp hw).2
  · simp [hv]

/-- Support of a word in a word list, as a proposition. -/
def HasSupport (ws : List Word) (i j : Nat) (w : Word) : Prop :=
  ∃ wy ∈ ws, w.getD i ' ' = wy.getD j ' '

theorem supportedBy_iff {ws : List Word} {i j : Nat} {w : Word} :
    supportedBy ws i j w = true ↔ HasSupport ws i j w := by
  simp [supportedBy, HasSupport, agreeAt, List.any_eq_true]

/-- **C6.** Characterization of `revise(x, y)`: with no overlap it is a
no-op returning `False`; with overlap `(i, j)` it keeps in `domain[x]`
exactly the words with a supporting word in `domain[y]`, touches no other
domain, and returns `True` iff at least one word was removed. -/
theorem c6_revise_characterization (cw : Crossword V) (dom : Domains V) (x y : V) :
    (cw.overlaps x y = none → revise cw dom x y = (false, dom)) ∧
    (∀ i j, cw.overlaps x y = some (i, j) →
      (∀ w, w ∈ (revise cw dom x y).2 x ↔
        w ∈ dom x ∧ HasSupport (dom y) i j w) ∧
      (∀ v, v ≠ x → (revise cw dom x y).2 v = dom v) ∧
      ((revise cw dom x y).1 = true ↔ ∃ w ∈ dom x, ¬ HasSupport (dom y) i j w)) := by
  constructor
  · intro h; exact revise_none h
  · intro i j h
    rw [revise_some h]
    refine ⟨?_, ?_, ?_⟩
    · intro w
      simp [Function.update_same, List.mem_filter, supportedBy_iff]
    · intro v hv
      simp [Function.update_apply, hv]
    · simp only [List.any_eq_true, Bool.not_eq_true']
      constructor
      · rintro ⟨w, hw, hsup⟩
        refine ⟨w, hw, fun hs => ?_⟩
        rw [supportedBy_iff.mpr hs] at hsup
        simp at hsup
      · rintro ⟨w, hw, hsup⟩
        refine ⟨w, hw, ?_⟩
        by_cases hb : supportedBy (dom y) i j w = true
        · exact absurd (supportedBy_iff.mp hb) hsup
        · simpa using hb

/-! ### Concrete computations for claims about the buggy branches -/

/-- **C4.** In `cwTriple` with assignment `{}`, slots 0 and 1 are the
unassigned variables tied on the minimal domain size, slot 1 has strictly
more neighbors than slot 0, yet `select_unassigned_variable` returns
slot 0: the tie is broken towards the FEWEST neighbors (the code sorts the
tied variables by degree ascending and takes the first), not the most. -/
theorem c4_select_picks_lowest_degree :
    select_unassigned_variable cwTriple domTriple [] = some 0 ∧
    (domTriple 0).length = (domTriple 1).length ∧
    (domTriple 1).length < (domTriple 2).length ∧
    (neighbors cwTriple 0).length < (neighbors cwTriple 1).length := by
  decide

/-- **C2.** In `cwPair` with domains `{0: {"ab"}, 1: {"xy"}}` and the
partial assignment `{1: "bz"}`, the tentative assignment `0 ↦ "ab"` passes
`consistent`, the incremental propagation seeded with `(1, 0)` reports
failure (`False`, slot 1's domain empties), and yet `backtrack` recurses on
that candidate and returns the completed assignment: the failure branch is
guarded by `is None`, which the boolean `False` never satisfies, so the
tentative assignment is not undone and the candidate is not skipped. -/
theorem c2_propagation_failure_not_pruned :
    ((ac3Loop 10 cwPair domPair [((1 : Fin 2), (0 : Fin 2))]).map (fun t => t.1)
        = some (some false)) ∧
    ((backtrack 10 cwPair domPair [((1 : Fin 2), "bz".toList)]).map (fun t => t.1)
        = some (some [((1 : Fin 2), "bz".toList), ((0 : Fin 2), "ab".toList)])) := by
  constructor
  · rfl
  · rfl

/-- **C3.** In `cwPair` with domains `{0: {"ab"}, 1: {"xy"}}`, `backtrack`
called on the empty assignment returns failure (Python `None`), but leaves
the shared state mutated: the assignment still holds `0 ↦ "ab"` and slot
1's domain — `["xy"]` at entry — has been emptied by the interleaved
propagation and never restored. -/
theorem c3_failing_return_mutates_state :
    ((backtrack 10 cwPair domPair []).map (fun t => t.1) = some none) ∧
    ((backtrack 10 cwPair domPair []).map (fun t => t.2.1)
        = some [((0 : Fin 2), "ab".toList)]) ∧
    ((backtrack 10 cwPair domPair []).map (fun t => t.2.2 1) = some []) ∧
    domPair 1 = ["xy".toList] := by
  refine ⟨rfl, rfl, rfl, rfl⟩

/-- **C9 counterexample.** `ac3` seeded with the two arcs
`[(1,0), (0,1)]` over `cwPair` returns `False` after consuming only the
first arc: the list the caller passed in still holds `(0,1)`, so it is not
true that the seed list is empty after every return of `ac3`. -/
theorem c9_counterexample :
    ((ac3Loop 10 cwPair domPair
        [((1 : Fin 2), (0 : Fin 2)), ((0 : Fin 2), (1 : Fin 2))]).map (fun t => t.1)
      = some (some false)) ∧
    ((ac3Loop 10 cwPair domPair
        [((1 : Fin 2), (0 : Fin 2)), ((0 : Fin 2), (1 : Fin 2))]).map (fun t => t.2.2)
      = some [((0 : Fin 2), (1 : Fin 2))]) := by
  constructor
  · rfl
  · rfl

/-- **C7 counterexample.** `cwIso` has a variable of length 5 while no word
of the list has length 5; node consistency does empty its domain, but the
initial full arc-consistency pass returns `True`, not failure: the variable
has no neighbor, so no revision ever empties a domain and `ac3` never
reports `False`. -/
theorem c7_counterexample :
    cwIso.varLength 0 = 5 ∧
    cwIso.words.all (fun w => ! (w.length == 5)) = true ∧
    (enforce_node_consistency cwIso (initialDomains cwIso)) 0 = [] ∧
    ((ac3Loop 10 cwIso (enforce_node_consistency cwIso (initialDomains cwIso))
        (initialArcs cwIso)).map (fun t => t.1) = some (some true)) := by
  refine ⟨rfl, by decide, by decide, by decide⟩

/-- **C9 (amended).** Whenever `ac3` returns `True`, the worklist — the
very list object the caller passed in when seeding — has been fully
consumed: the loop only reaches `return True` once the list is empty.
(The counterexample above shows an early `False` return can leave arcs.) -/
theorem c9_amended (fuel : Nat) (cw : Crossword V) (dom : Domains V)
    (arcs : List (V × V)) (domF : Domains V) (rest : List (V × V))
    (h : ac3Loop fuel cw dom arcs = some (some true, domF, rest)) :
    rest = [] := by
  induction fuel generalizing dom arcs with
  | zero => simp [ac3Loop] at h
  | succ fuel ih =>
    cases arcs with
    | nil =>
      simp only [ac3Loop, Option.some.injEq, Prod.mk.injEq] at h
      exact h.2.2.symm
    | cons a rest2 =>
      obtain ⟨x, y⟩ := a
      simp only [ac3Loop] at h
      by_cases h1 : (revise cw dom x y).1 = true
      · rw [if_pos h1] at h
        by_cases h2 : ((revise cw dom x y).2 x).length = 0
        · rw [if_pos h2] at h
          simp at h
        · rw [if_neg h2] at h
          exact ih _ _ h
      · rw [if_neg h1] at h
        exact ih _ _ h

theorem c9_amended_witness :
    (ac3Loop 5 cwPair domOk [((1 : Fin 2), (0 : Fin 2))]
      = some (some true, Function.update domOk 1 ["bc".toList], [])) ∧
    ([] : List (Fin 2 × Fin 2)) = [] :=
  ⟨rfl, c9_amended 5 cwPair domOk [((1 : Fin 2), (0 : Fin 2))]
    (Function.update domOk 1 ["bc".toList]) [] rfl⟩

/-! ### Soundness of the assignment checks -/

theorem consistentB_mem_length {cw : Crossword V} {asg : List (V × Word)}
    (h : consistentB cw asg = true) {v : V} {w : Word} (hm : (v, w) ∈ asg) :
    w.length = cw.varLength v := by
  unfold consistentB at h
  rw [Bool.and_eq_true] at h
  have hp := List.all_eq_true.mp h.1 (v, w) hm
  rw [Bool.and_eq_true] at hp
  have hp1 := hp.1
  simp only [beq_iff_eq] at hp1
  exact hp1

theorem consistentB_agree {cw : Crossword V} {asg : List (V × Word)}
    (h : consistentB cw asg = true) {x y : V} {i j : Nat} {wx wy : Word}
    (hy : y ∈ cw.vars) (hxy : x ≠ y) (hov : cw.overlaps x y = some (i, j))
    (hgx : alistGet asg x = some wx) (hgy : alistGet asg y = some wy) :
    wx.getD i ' ' = wy.getD j ' ' := by
  unfold consistentB at h
  rw [Bool.and_eq_true] at h
  have hp := List.all_eq_true.mp h.1 (x, wx) (alistGet_mem hgx)
  rw [Bool.and_eq_true] at hp
  have hnb : y ∈ neighbors cw x :=
    mem_neighbors.mpr ⟨hy, Ne.symm hxy, by rw [hov]; rfl⟩
  have hq := List.all_eq_true.mp hp.2 y hnb
  simp only [hov, hgy, agreeAt] at hq
  exact eq_of_beq hq

theorem consistentB_distinct {cw : Crossword V} {asg : List (V × Word)}
    (h : consistentB cw asg = true) : (asg.map Prod.snd).Nodup := by
  unfold consistentB at h
  rw [Bool.and_eq_true] at h
  exact nodupB_iff.mp h.2

theorem complete_spec {cw : Crossword V} {asg : List (V × Word)}
    (h : assignment_complete cw asg = true) :
    ∀ v ∈ cw.vars, ∃ w, alistGet asg v = some w ∧ w ≠ [] := by
  intro v hv
  have hp := List.all_eq_true.mp h v hv
  cases hg : alistGet asg v with
  | none => rw [hg] at hp; simp at hp
  | some w =>
    rw [hg] at hp
    simp only [decide_eq_true_eq] at hp
    exact ⟨w, rfl, List.ne_nil_of_length_pos hp⟩

/-- Any assignment returned as a success by the backtracking search is
complete and passes `consistent`: a success arises only at an entry whose
assignment the caller had just checked with `consistent` (or the consistent
one originally passed in), or is passed up from such a recursive call. -/
theorem backtrack_sound (fuel : Nat) :
    (∀ (cw : Crossword V) (dom : Domains V) (asg a fa : List (V × Word)) (fd : Domains V),
      consistentB cw asg = true →
      backtrack fuel cw dom asg = some (some a, fa, fd) →
      assignment_complete cw a = true ∧ consistentB cw a = true) ∧
    (∀ (cw : Crossword V) (dom : Domains V) (asg : List (V × Word)) (var : V)
      (vals : List Word) (a fa : List (V × Word)) (fd : Domains V),
      btLoop fuel cw dom asg var vals = some (some a, fa, fd) →
      assignment_complete cw a = true ∧ consistentB cw a = true) := by
  induction fuel with
  | zero =>
    constructor
    · intro cw dom asg a fa fd _ hb
      simp [backtrack] at hb
    · intro cw dom asg var vals a fa fd hb
      simp [btLoop] at hb
  | succ fuel ih =>
    constructor
    · intro cw dom asg a fa fd hpre hb
      simp only [backtrack] at hb
      by_cases hcomp : assignment_complete cw asg = true
      · rw [if_pos hcomp] at hb
        simp only [Option.some.injEq, Prod.mk.injEq] at hb
        obtain ⟨ha, -⟩ := hb
        subst ha
        exact ⟨hcomp, hpre⟩
      · rw [if_neg hcomp] at hb
        cases hsel : select_unassigned_variable cw dom asg with
        | none => rw [hsel] at hb; simp at hb
        | some var =>
          rw [hsel] at hb
          exact ih.2 cw dom asg var _ a fa fd hb
    · intro cw dom asg var vals a fa fd hb
      cases vals with
      | nil =>
        simp [btLoop] at hb
      | cons val rest =>
        simp only [btLoop] at hb
        by_cases hc : consistentB cw (alistSet asg var val) = true
        · rw [if_pos hc] at hb
          cases hac : ac3Loop (fuel + 1) cw dom
              ((neighbors cw var).map (fun nb => (nb, var))) with
          | none => rw [hac] at hb; simp at hb
          | some t =>
            obtain ⟨r, dom1, arcsF⟩ := t
            rw [hac] at hb
            simp only at hb
            by_cases hr : r = none
            · rw [if_pos hr] at hb
              simp at hb
            · rw [if_neg hr] at hb
              cases hbt : backtrack fuel cw dom1 (alistSet asg var val) with
              | none => rw [hbt] at hb; simp at hb
              | some t2 =>
                obtain ⟨ret2, asg2, dom2⟩ := t2
                rw [hbt] at hb
                cases ret2 with
                | none =>
                  simp only at hb
                  exact ih.2 cw dom2 asg2 var rest a fa fd hb
                | some res =>
                  simp only [Option.some.injEq, Prod.mk.injEq] at hb
                  obtain ⟨hres, hfa, hfd⟩ := hb
                  rw [hres, hfa, hfd] at hbt
                  exact ih.1 cw dom1 (alistSet asg var val) a fa fd hc hbt
        · rw [if_neg hc] at hb
          exact ih.2 cw dom (alistDel (alistSet asg var val) var) var rest a fa fd hb

/-- **C1.** If `solve` returns an assignment (not Python `None`), that
assignment is complete — every variable of the puzzle carries a non-empty
word — and satisfies all constraints: each assigned word has its variable's
length, assigned words of overlapping variables agree at the recorded
overlap indices, and all assigned words are pairwise distinct. -/
theorem c1_solve_sound (fuel : Nat) (cw : Crossword V) (a : List (V × Word))
    (h : (solve fuel cw).map (fun t => t.1) = some (some a)) :
    (∀ v ∈ cw.vars, ∃ w, alistGet a v = some w ∧ w ≠ []) ∧
    (∀ v w, (v, w) ∈ a → w.length = cw.varLength v) ∧
    (∀ x y i j wx wy, y ∈ cw.vars → x ≠ y → cw.overlaps x y = some (i, j) →
      alistGet a x = some wx → alistGet a y = some wy →
      wx.getD i ' ' = wy.getD j ' ') ∧
    (a.map Prod.snd).Nodup := by
  rw [Option.map_eq_some'] at h
  obtain ⟨t, hs, ht⟩ := h
  obtain ⟨ret, fa, fd⟩ := t
  simp only at ht
  subst ht
  simp only [solve] at hs
  set dom1 := enforce_node_consistency cw (initialDomains cw) with hdom1
  cases hac : ac3Loop fuel cw dom1 (initialArcs cw) with
  | none => rw [hac] at hs; simp at hs
  | some t2 =>
    obtain ⟨b, dom2, arcsF⟩ := t2
    rw [hac] at hs
    simp only at hs
    have hpre : consistentB cw ([] : List (V × Word)) = true := rfl
    have hsound := (backtrack_sound fuel).1 cw dom2 [] a fa fd hpre hs
    exact ⟨complete_spec hsound.1,
      fun v w hm => consistentB_mem_length hsound.2 hm,
      fun x y i j wx wy hy hxy hov hgx hgy =>
        consistentB_agree hsound.2 hy hxy hov hgx hgy,
      consistentB_distinct hsound.2⟩

theorem c1_solve_sound_witness :
    ((solve 15 cwSpec).map (fun t => t.1)
      = some (some [((0 : Fin 2), "ABA".toList), ((1 : Fin 2), "BBB".toList)])) ∧
    (([((0 : Fin 2), "ABA".toList), ((1 : Fin 2), "BBB".toList)].map Prod.snd).Nodup) :=
  ⟨rfl, (c1_solve_sound 15 cwSpec
    [((0 : Fin 2), "ABA".toList), ((1 : Fin 2), "BBB".toList)] (by rfl)).2.2.2⟩

/-! ### `ac3` always returns a boolean: termination measure and return sites -/

theorem ac3Loop_ne_none (fuel : Nat) (cw : Crossword V) (dom : Domains V)
    (arcs : List (V × V)) (r : Option Bool) (d : Domains V) (rest : List (V × V))
    (h : ac3Loop fuel cw dom arcs = some (r, d, rest)) : r ≠ none := by
  induction fuel generalizing dom arcs with
  | zero => simp [ac3Loop] at h
  | succ fuel ih =>
    cases arcs with
    | nil =>
      simp only [ac3Loop, Option.some.injEq, Prod.mk.injEq] at h
      rw [← h.1]
      simp
    | cons a rest2 =>
      obtain ⟨x, y⟩ := a
      simp only [ac3Loop] at h
      by_cases h1 : (revise cw dom x y).1 = true
      · rw [if_pos h1] at h
        by_cases h2 : ((revise cw dom x y).2 x).length = 0
        · rw [if_pos h2] at h
          simp only [Option.some.injEq, Prod.mk.injEq] at h
          rw [← h.1]
          simp
        · rw [if_neg h2] at h
          exact ih _ _ h
      · rw [if_neg h1] at h
        exact ih _ _ h

/-- Total size of the domain store over the puzzle's variables: the
decreasing part of the AC-3 termination measure. -/
def domSize (cw : Crossword V) (dom : Domains V) : Nat :=
  (cw.vars.map (fun v => (dom v).length)).sum

theorem sum_map_le {vs : List V} {d1 d2 : Domains V}
    (h : ∀ v, (d1 v).length ≤ (d2 v).length) :
    (vs.map (fun v => (d1 v).length)).sum ≤ (vs.map (fun v => (d2 v).length)).sum := by
  induction vs with
  | nil => simp
  | cons x xs ih =>
    simp only [List.map_cons, List.sum_cons]
    exact Nat.add_le_add (h x) ih

theorem sum_map_lt {vs : List V} {d1 d2 : Domains V} {x : V}
    (h : ∀ v, (d1 v).length ≤ (d2 v).length) (hx : x ∈ vs)
    (hlt : (d1 x).length < (d2 x).length) :
    (vs.map (fun v => (d1 v).length)).sum < (vs.map (fun v => (d2 v).length)).sum := by
  induction vs with
  | nil => simp at hx
  | cons a as ih =>
    simp only [List.map_cons, List.sum_cons]
    rcases List.mem_cons.mp hx with rfl | hmem
    · exact Nat.add_lt_add_of_lt_of_le hlt (sum_map_le h)
    · exact Nat.add_lt_add_of_le_of_lt (h a) (ih hmem)

theorem appended_length_le (cw : Crossword V) (x y : V) :
    (((neighbors cw x).filter (fun z => z ≠ y)).map (fun z => (z, x))).length
      ≤ cw.vars.length := by
  rw [List.length_map]
  calc ((neighbors cw x).filter (fun z => z ≠ y)).length
      ≤ (neighbors cw x).length := List.length_filter_le _ _
    _ ≤ cw.vars.length := List.length_filter_le _ _

/-- Fuel that always suffices for `ac3Loop`: each iteration either consumes
an arc without touching the domains, or strictly shrinks the total domain
size while appending at most one arc per variable. -/
def ac3Bound (cw : Crossword V) (dom : Domains V) (arcs : List (V × V)) : Nat :=
  arcs.length + domSize cw dom * (cw.vars.length + 1) + 1

theorem ac3Loop_total (cw : Crossword V) :
    ∀ (fuel : Nat) (dom : Domains V) (arcs : List (V × V)),
    (∀ p ∈ arcs, p.1 ∈ cw.vars) → ac3Bound cw dom arcs ≤ fuel →
    (ac3Loop fuel cw dom arcs).isSome = true := by
  intro fuel
  induction fuel with
  | zero =>
    intro dom arcs _ hb
    unfold ac3Bound at hb
    generalize domSize cw dom * (cw.vars.length + 1) = B at hb
    omega
  | succ fuel ih =>
    intro dom arcs hwf hb
    cases arcs with
    | nil => simp [ac3Loop]
    | cons a rest =>
      obtain ⟨x, y⟩ := a
      simp only [ac3Loop]
      by_cases h1 : (revise cw dom x y).1 = true
      · rw [if_pos h1]
        by_cases h2 : ((revise cw dom x y).2 x).length = 0
        · rw [if_pos h2]
          rfl
        · rw [if_neg h2]
          apply ih
          · intro p hp
            rcases List.mem_append.mp hp with hp | hp
            · exact hwf p (List.mem_cons_of_mem _ hp)
            · obtain ⟨z, hz, rfl⟩ := List.mem_map.mp hp
              exact (mem_neighbors.mp (List.mem_filter.mp hz).1).1
          · have hx : x ∈ cw.vars := hwf (x, y) (List.mem_cons_self _ _)
            have hlt : domSize cw (revise cw dom x y).2 < domSize cw dom :=
              sum_map_lt (fun v => revise_snd_le v) hx (revise_true_lt h1)
            have happ := appended_length_le cw x y
            unfold ac3Bound at hb ⊢
            rw [List.length_append]
            have hmul : domSize cw (revise cw dom x y).2 * (cw.vars.length + 1)
                + (cw.vars.length + 1)
                ≤ domSize cw dom * (cw.vars.length + 1) := by
              have h4 := Nat.mul_le_mul_right (cw.vars.length + 1) hlt
              rw [Nat.succ_mul] at h4
              exact h4
            simp only [List.length_cons] at hb
            generalize domSize cw (revise cw dom x y).2 * (cw.vars.length + 1) = A at hmul ⊢
            generalize domSize cw dom * (cw.vars.length + 1) = B at hmul hb
            omega
      · rw [if_neg h1]
        have h1f : (revise cw dom x y).1 = false := by simpa using h1
        rw [revise_false_snd h1f]
        apply ih
        · intro p hp
          exact hwf p (List.mem_cons_of_mem _ hp)
        · unfold ac3Bound at hb ⊢
          simp only [List.length_cons] at hb
          generalize domSize cw dom * (cw.vars.length + 1) = B at hb ⊢
          omega

/-- **C10.** `ac3` returns a boolean for every (variable-valued) input and
never Python `None`: every `some` result of the loop carries `some true` or
`some false`, and the loop always delivers a result once given the fuel
bound — so the `self.ac3(arcs) is None` branch of `backtrack` can never be
taken. -/
theorem c10_ac3_total_bool :
    (∀ (fuel : Nat) (cw : Crossword V) (dom : Domains V) (arcs : List (V × V))
        (r : Option Bool) (d : Domains V) (rest : List (V × V)),
      ac3Loop fuel cw dom arcs = some (r, d, rest) → r ≠ none) ∧
    (∀ (cw : Crossword V) (dom : Domains V) (arcs : List (V × V)),
      (∀ p ∈ arcs, p.1 ∈ cw.vars) →
      (ac3Loop (ac3Bound cw dom arcs) cw dom arcs).isSome = true) :=
  ⟨fun fuel cw dom arcs r d rest h => ac3Loop_ne_none fuel cw dom arcs r d rest h,
   fun cw dom arcs hwf => ac3Loop_total cw (ac3Bound cw dom arcs) dom arcs hwf (Nat.le_refl _)⟩

theorem c10_witness :
    ((ac3Loop (ac3Bound cwPair domPair [((1 : Fin 2), (0 : Fin 2))]) cwPair domPair
        [((1 : Fin 2), (0 : Fin 2))]).isSome = true) ∧
    (some false ≠ (none : Option Bool)) :=
  ⟨c10_ac3_total_bool.2 cwPair domPair [((1 : Fin 2), (0 : Fin 2))] (by decide),
   c10_ac3_total_bool.1 10 cwPair domPair [((1 : Fin 2), (0 : Fin 2))] (some false)
     (Function.update domPair 1 []) [] rfl⟩

/-! ### Arc consistency of a successful full AC-3 pass -/

/-- Arc consistency of the whole store: every word in `domain[x]` has a
supporting word in `domain[y]` for every overlapping neighbor `y` of `x`. -/
def ArcConsistent (cw : Crossword V) (dom : Domains V) : Prop :=
  ∀ x ∈ cw.vars, ∀ y ∈ neighbors cw x, ∀ i j, cw.overlaps x y = some (i, j) →
    ∀ w ∈ dom x, HasSupport (dom y) i j w

/-- Modelled from the spec: the overlap table is symmetric — the entry for
`(y, x)` is the entry for `(x, y)` with the index pair swapped. -/
def WFOverlaps (cw : Crossword V) : Prop :=
  ∀ x ∈ cw.vars, ∀ y ∈ cw.vars,
    cw.overlaps y x = (cw.overlaps x y).map (fun p => (p.2, p.1))

/-- Work-list sanity: both endpoints of every queued arc are distinct
variables of the puzzle. -/
def ArcsOK (cw : Crossword V) (arcs : List (V × V)) : Prop :=
  ∀ p ∈ arcs, p.1 ∈ cw.vars ∧ p.2 ∈ cw.vars ∧ p.1 ≠ p.2

/-- The AC-3 loop invariant: every overlapping pair of distinct variables
is either still queued or already arc consistent. -/
def AC3Inv (cw : Crossword V) (dom : Domains V) (arcs : List (V × V)) : Prop :=
  ∀ x y, x ∈ cw.vars → y ∈ cw.vars → x ≠ y →
    ∀ i j, cw.overlaps x y = some (i, j) →
      (x, y) ∈ arcs ∨ ∀ w ∈ dom x, supportedBy (dom y) i j w = true

theorem ac3Loop_preserves (cw : Crossword V) (hsym : WFOverlaps cw) :
    ∀ (fuel : Nat) (dom : Domains V) (arcs : List (V × V)) (domF : Domains V)
      (rest : List (V × V)),
    ArcsOK cw arcs → AC3Inv cw dom arcs →
    ac3Loop fuel cw dom arcs = some (some true, domF, rest) →
    AC3Inv cw domF [] := by
  intro fuel
  induction fuel with
  | zero =>
    intro dom arcs domF rest _ _ h
    simp [ac3Loop] at h
  | succ fuel ih =>
    intro dom arcs domF rest hok hinv h
    cases arcs with
    | nil =>
      simp only [ac3Loop, Option.some.injEq, Prod.mk.injEq] at h
      obtain ⟨-, hdom, -⟩ := h
      subst hdom
      intro x y hx hy hxy i j hov
      rcases hinv x y hx hy hxy i j hov with hmem | hsup
      · simp at hmem
      · exact Or.inr hsup
    | cons a rest2 =>
      obtain ⟨x0, y0⟩ := a
      obtain ⟨hx0v, hy0v, hx0y0⟩ := hok (x0, y0) (List.mem_cons_self _ _)
      simp only [ac3Loop] at h
      by_cases h1 : (revise cw dom x0 y0).1 = true
      · -- a revision happened: the overlap must exist
        rw [if_pos h1] at h
        cases hov0 : cw.overlaps x0 y0 with
        | none => rw [revise_none hov0] at h1; simp at h1
        | some p0 =>
          obtain ⟨i0, j0⟩ := p0
          by_cases h2 : ((revise cw dom x0 y0).2 x0).length = 0
          · rw [if_pos h2] at h
            simp at h
          · rw [if_neg h2] at h
            have hdx0 : (revise cw dom x0 y0).2 x0
                = (dom x0).filter (supportedBy (dom y0) i0 j0) := by
              rw [revise_some hov0]
              simp [Function.update_same]
            have hdne : ∀ v, v ≠ x0 → (revise cw dom x0 y0).2 v = dom v := by
              intro v hv
              rw [revise_some hov0]
              simp [Function.update_apply, hv]
            refine ih _ _ domF rest ?_ ?_ h
            · -- ArcsOK for rest2 ++ appended
              intro p hp
              rcases List.mem_append.mp hp with hp | hp
              · exact hok p (List.mem_cons_of_mem _ hp)
              · obtain ⟨z, hz, rfl⟩ := List.mem_map.mp hp
                obtain ⟨hz1, hz2⟩ := List.mem_filter.mp hz
                obtain ⟨hzv, hzx, -⟩ := mem_neighbors.mp hz1
                exact ⟨hzv, hx0v, hzx⟩
            · -- invariant is preserved by the revision
              intro x y hx hy hxy i j hov
              by_cases hxx0 : x = x0
              · subst hxx0
                by_cases hyy0 : y = y0
                · -- the popped arc itself: now consistent by construction
                  subst hyy0
                  right
                  rw [hov0] at hov
                  have h5 := Option.some.inj hov
                  rw [Prod.mk.injEq] at h5
                  obtain ⟨hi, hj⟩ := h5
                  subst hi
                  subst hj
                  intro w hw
                  rw [hdx0] at hw
                  rw [hdne y (Ne.symm hxy)]
                  exact (List.mem_filter.mp hw).2
                · -- x is the revised variable, y some other neighbor of it
                  rcases hinv x y hx hy hxy i j hov with hmem | hsup
                  · rcases List.mem_cons.mp hmem with heq | hmem2
                    · rw [Prod.mk.injEq] at heq
                      exact absurd heq.2 hyy0
                    · exact Or.inl (List.mem_append_left _ hmem2)
                  · right
                    intro w hw
                    rw [hdx0] at hw
                    rw [hdne y (Ne.symm hxy)]
                    exact hsup w (List.mem_filter.mp hw).1
              · by_cases hyx0 : y = x0
                · subst hyx0
                  -- here the revised variable is (the substituted) y
                  by_cases hxy0 : x = y0
                  · subst hxy0
                    -- the reversed arc (y0, x0) = (x, y): its consistency
                    -- survives because every removed word of dom y had no
                    -- supporter in dom x at all
                    have hs := hsym x hx y hy
                    rw [hov0, hov] at hs
                    simp only [Option.map_some', Option.some.injEq,
                      Prod.mk.injEq] at hs
                    obtain ⟨hi0, hj0⟩ := hs
                    subst hi0
                    subst hj0
                    rcases hinv x y hx hy hxy j0 i0 hov with hmem | hsup
                    · rcases List.mem_cons.mp hmem with heq | hmem2
                      · rw [Prod.mk.injEq] at heq
                        exact absurd heq.1 hxx0
                      · exact Or.inl (List.mem_append_left _ hmem2)
                    · right
                      intro w hw
                      rw [hdne x hxx0] at hw
                      obtain ⟨wa, hwa, hagree⟩ := supportedBy_iff.mp (hsup w hw)
                      refine supportedBy_iff.mpr ⟨wa, ?_, hagree⟩
                      rw [hdx0]
                      refine List.mem_filter.mpr ⟨hwa, ?_⟩
                      exact supportedBy_iff.mpr ⟨w, hw, hagree.symm⟩
                  · -- another neighbor of the revised variable: re-queued
                    left
                    refine List.mem_append_right _ ?_
                    refine List.mem_map.mpr ⟨x, ?_, rfl⟩
                    refine List.mem_filter.mpr ⟨?_, by simp [hxy0]⟩
                    refine mem_neighbors.mpr ⟨hx, hxx0, ?_⟩
                    have hs := hsym x hx y hy
                    rw [hov] at hs
                    rw [hs]
                    rfl
                · -- neither endpoint is the revised variable
                  rcases hinv x y hx hy hxy i j hov with hmem | hsup
                  · rcases List.mem_cons.mp hmem with heq | hmem2
                    · rw [Prod.mk.injEq] at heq
                      exact absurd heq.1 hxx0
                    · exact Or.inl (List.mem_append_left _ hmem2)
                  · right
                    rw [hdne x hxx0, hdne y hyx0]
                    exact hsup
      · -- no revision: the popped arc is now consistent, nothing changed
        rw [if_neg h1] at h
        have h1f : (revise cw dom x0 y0).1 = false := by simpa using h1
        rw [revise_false_snd h1f] at h
        refine ih _ _ domF rest ?_ ?_ h
        · intro p hp
          exact hok p (List.mem_cons_of_mem _ hp)
        · intro x y hx hy hxy i j hov
          rcases hinv x y hx hy hxy i j hov with hmem | hsup
          · rcases List.mem_cons.mp hmem with heq | hmem2
            · -- (x, y) is the popped arc: not revised means all supported
              rw [Prod.mk.injEq] at heq
              obtain ⟨hxx0, hyy0⟩ := heq
              subst hxx0
              subst hyy0
              right
              cases hov0 : cw.overlaps x y with
              | none => rw [hov0] at hov; simp at hov
              | some p0 =>
                obtain ⟨i0, j0⟩ := p0
                rw [hov0] at hov
                have h5 := Option.some.inj hov
                rw [Prod.mk.injEq] at h5
                obtain ⟨hi, hj⟩ := h5
                subst hi
                subst hj
                rw [revise_some hov0] at h1f
                simp only [List.any_eq_false, Bool.not_eq_true'] at h1f
                intro w hw
                exact Bool.ne_false_iff.mp (h1f w hw)
            · exact Or.inl hmem2
          · exact Or.inr hsup

/-- **C5.** If a full arc-consistency pass (`ac3` with no seed, i.e. the
worklist of every overlapping ordered pair of variables) returns `True`,
the resulting Domain Store is arc consistent: every word remaining in
`domain[x]` has at least one supporting word in `domain[y]` for every
overlapping neighbor `y` of `x`. -/
theorem c5_ac3_true_arc_consistent (fuel : Nat) (cw : Crossword V)
    (dom domF : Domains V) (rest : List (V × V)) (hsym : WFOverlaps cw)
    (h : ac3Loop fuel cw dom (initialArcs cw) = some (some true, domF, rest)) :
    ArcConsistent cw domF := by
  have hok : ArcsOK cw (initialArcs cw) := by
    intro p hp
    unfold initialArcs at hp
    obtain ⟨hmem, hpred⟩ := List.mem_filter.mp hp
    obtain ⟨h1, h2⟩ := List.mem_product.mp hmem
    simp only [Bool.and_eq_true, decide_eq_true_eq] at hpred
    exact ⟨h1, h2, hpred.1⟩
  have hinv : AC3Inv cw dom (initialArcs cw) := by
    intro x y hx hy hxy i j hov
    left
    unfold initialArcs
    refine List.mem_filter.mpr ⟨List.mem_product.mpr ⟨hx, hy⟩, ?_⟩
    simp [hxy, hov]
  have hfin := ac3Loop_preserves cw hsym fuel dom (initialArcs cw) domF rest hok hinv h
  intro x hx y hy i j hov w hw
  obtain ⟨hyv, hyx, -⟩ := mem_neighbors.mp hy
  rcases hfin x y hx hyv (Ne.symm hyx) i j hov with hmem | hsup
  · simp at hmem
  · exact supportedBy_iff.mp (hsup w hw)

theorem c5_witness :
    ArcConsistent cwPair
      (Function.update (Function.update domOk 0 ["ab".toList]) 1 ["bc".toList]) :=
  c5_ac3_true_arc_consistent 5 cwPair domOk
    (Function.update (Function.update domOk 0 ["ab".toList]) 1 ["bc".toList]) []
    (by unfold WFOverlaps; decide) rfl

/-! ### The stable sort places a minimal key first -/

theorem mem_insertByKey {k : α → Nat} {x a : α} {l : List α} :
    a ∈ insertByKey k x l ↔ a = x ∨ a ∈ l := by
  induction l with
  | nil => simp [insertByKey]
  | cons y ys ih =>
    simp only [insertByKey]
    by_cases h : k x ≤ k y
    · rw [if_pos h]
      simp [List.mem_cons]
    · rw [if_neg h]
      simp only [List.mem_cons, ih]
      tauto

theorem mem_sortByKey {k : α → Nat} {l : List α} {a : α} :
    a ∈ sortByKey k l ↔ a ∈ l := by
  induction l with
  | nil => simp [sortByKey]
  | cons x xs ih =>
    show a ∈ insertByKey k x (sortByKey k xs) ↔ a ∈ x :: xs
    rw [mem_insertByKey]
    simp [ih, List.mem_cons]

theorem pairwise_insertByKey {k : α → Nat} {x : α} {l : List α}
    (h : l.Pairwise (fun a b => k a ≤ k b)) :
    (insertByKey k x l).Pairwise (fun a b => k a ≤ k b) := by
  induction l with
  | nil => simp [insertByKey]
  | cons y ys ih =>
    rw [List.pairwise_cons] at h
    simp only [insertByKey]
    by_cases hxy : k x ≤ k y
    · rw [if_pos hxy]
      refine List.pairwise_cons.mpr ⟨?_, List.pairwise_cons.mpr h⟩
      intro b hb
      rcases List.mem_cons.mp hb with rfl | hb2
      · exact hxy
      · exact Nat.le_trans hxy (h.1 b hb2)
    · rw [if_neg hxy]
      refine List.pairwise_cons.mpr ⟨?_, ih h.2⟩
      intro b hb
      rcases mem_insertByKey.mp hb with rfl | hb2
      · exact Nat.le_of_lt (Nat.not_le.mp hxy)
      · exact h.1 b hb2

theorem pairwise_sortByKey {k : α → Nat} (l : List α) :
    (sortByKey k l).Pairwise (fun a b => k a ≤ k b) := by
  induction l with
  | nil => simp [sortByKey]
  | cons x xs ih => exact pairwise_insertByKey ih

theorem sortByKey_head_min {k : α → Nat} {l : List α} {p0 : α} {t : List α}
    (h : sortByKey k l = p0 :: t) : ∀ a ∈ l, k p0 ≤ k a := by
  intro a ha
  have hmem : a ∈ sortByKey k l := mem_sortByKey.mpr ha
  rw [h] at hmem
  rcases List.mem_cons.mp hmem with rfl | hmem2
  · exact Nat.le_refl _
  · have hp := pairwise_sortByKey (k := k) l
    rw [h, List.pairwise_cons] at hp
    exact hp.1 a hmem2

theorem mem_takeWhile_pred {p : α → Bool} {l : List α} {a : α}
    (h : a ∈ l.takeWhile p) : a ∈ l ∧ p a = true := by
  induction l with
  | nil => simp [List.takeWhile] at h
  | cons x xs ih =>
    cases hp : p x with
    | false =>
      rw [List.takeWhile_cons_of_neg (by simp [hp])] at h
      simp at h
    | true =>
      rw [List.takeWhile_cons_of_pos hp] at h
      simp only [List.mem_cons] at h ⊢
      rcases h with h1 | h2
      · subst h1
        exact ⟨Or.inl rfl, hp⟩
      · exact ⟨Or.inr (ih h2).1, (ih h2).2⟩

/-- The variable returned by `select_unassigned_variable` is an unassigned
variable of minimal current domain size. -/
theorem select_min {cw : Crossword V} {dom : Domains V} {asg : List (V × Word)} {u : V}
    (h : select_unassigned_variable cw dom asg = some u) :
    ∃ c, (u, c) ∈ unassignedCounts cw dom asg ∧
      ∀ p ∈ unassignedCounts cw dom asg, c ≤ p.2 := by
  unfold select_unassigned_variable at h
  cases hs : sortByKey (fun p => p.2) (unassignedCounts cw dom asg) with
  | nil => rw [hs] at h; simp at h
  | cons p0 t =>
    rw [hs] at h
    simp only at h
    have hmin : ∀ p ∈ unassignedCounts cw dom asg, p0.2 ≤ p.2 :=
      fun p hp => sortByKey_head_min hs p hp
    by_cases hlen : ((p0 :: t).takeWhile (fun p => p.2 == p0.2)).length = 1
    · rw [if_pos hlen] at h
      have hu := Option.some.inj h
      have hp0 : p0 ∈ unassignedCounts cw dom asg :=
        mem_sortByKey.mp (hs ▸ List.mem_cons_self _ _)
      refine ⟨p0.2, ?_, hmin⟩
      rw [← hu]
      simpa using hp0
    · rw [if_neg hlen] at h
      cases hq : sortByKey (fun p => (neighbors cw p.1).length)
          ((p0 :: t).takeWhile (fun p => p.2 == p0.2)) with
      | nil => rw [hq] at h; simp at h
      | cons q qt =>
        rw [hq] at h
        have hu := Option.some.inj h
        have hqmem : q ∈ (p0 :: t).takeWhile (fun p => p.2 == p0.2) :=
          mem_sortByKey.mp (hq ▸ List.mem_cons_self _ _)
        obtain ⟨hq1, hq2⟩ := mem_takeWhile_pred hqmem
        have hq2e : q.2 = p0.2 := eq_of_beq hq2
        have hqc : q ∈ unassignedCounts cw dom asg := mem_sortByKey.mp (hs ▸ hq1)
        refine ⟨q.2, ?_, ?_⟩
        · rw [← hu]
          simpa using hqc
        · intro p hp
          rw [hq2e]
          exact hmin p hp

/-- AC-3 only ever narrows the domain store. -/
theorem ac3Loop_shrinks (fuel : Nat) (cw : Crossword V) (dom : Domains V)
    (arcs : List (V × V)) (r : Option Bool) (d : Domains V) (rest : List (V × V))
    (h : ac3Loop fuel cw dom arcs = some (r, d, rest)) :
    ∀ v, (d v).length ≤ (dom v).length := by
  induction fuel generalizing dom arcs with
  | zero => simp [ac3Loop] at h
  | succ fuel ih =>
    cases arcs with
    | nil =>
      simp only [ac3Loop, Option.some.injEq, Prod.mk.injEq] at h
      obtain ⟨-, hd, -⟩ := h
      subst hd
      exact fun v => Nat.le_refl _
    | cons a rest2 =>
      obtain ⟨x, y⟩ := a
      simp only [ac3Loop] at h
      by_cases h1 : (revise cw dom x y).1 = true
      · rw [if_pos h1] at h
        by_cases h2 : ((revise cw dom x y).2 x).length = 0
        · rw [if_pos h2] at h
          simp only [Option.some.injEq, Prod.mk.injEq] at h
          obtain ⟨-, hd, -⟩ := h
          subst hd
          exact fun v => revise_snd_le v
        · rw [if_neg h2] at h
          exact fun v => Nat.le_trans (ih _ _ h v) (revise_snd_le v)
      · rw [if_neg h1] at h
        exact fun v => Nat.le_trans (ih _ _ h v) (revise_snd_le v)

/-- **C7 (amended).** For every puzzle containing a variable whose length
no word matches, node consistency empties that variable's domain and
`solve` returns the no-solution result (Python `None`) whenever it returns
at all — the empty-domain variable is (or ties for) the minimum-remaining-
values choice, its candidate list is empty, and the search fails cleanly.
(The initial arc-consistency pass need not fail; see the counterexample.) -/
theorem c7_amended (cw : Crossword V) (v : V) (hv : v ∈ cw.vars)
    (hlen : ∀ w ∈ cw.words, w.length ≠ cw.varLength v) :
    (enforce_node_consistency cw (initialDomains cw)) v = [] ∧
    (∀ fuel r, (solve fuel cw).map (fun t => t.1) = some r → r = none) := by
  have hempty : (enforce_node_consistency cw (initialDomains cw)) v = [] := by
    rw [enforce_apply, if_pos hv]
    refine List.filter_eq_nil_iff.mpr ?_
    intro w hw
    simp [hlen w hw]
  refine ⟨hempty, ?_⟩
  intro fuel r h
  rw [Option.map_eq_some'] at h
  obtain ⟨t, hs, ht⟩ := h
  obtain ⟨ret, fa, fd⟩ := t
  simp only at ht
  subst ht
  simp only [solve] at hs
  cases hac : ac3Loop fuel cw (enforce_node_consistency cw (initialDomains cw))
      (initialArcs cw) with
  | none => rw [hac] at hs; simp at hs
  | some t2 =>
    obtain ⟨b, dom2, arcsF⟩ := t2
    rw [hac] at hs
    simp only at hs
    have hle := ac3Loop_shrinks fuel cw _ _ b dom2 arcsF hac v
    rw [hempty] at hle
    have hd2 : dom2 v = [] := List.length_eq_zero.mp (Nat.le_zero.mp hle)
    cases fuel with
    | zero => simp [backtrack] at hs
    | succ fuel2 =>
      simp only [backtrack] at hs
      have hncomp : assignment_complete cw ([] : List (V × Word)) = false := by
        refine List.all_eq_false.mpr ⟨v, hv, ?_⟩
        simp [alistGet]
      rw [hncomp] at hs
      simp only [Bool.false_eq_true, if_false] at hs
      cases hsel : select_unassigned_variable cw dom2 [] with
      | none => rw [hsel] at hs; simp at hs
      | some u =>
        rw [hsel] at hs
        simp only at hs
        obtain ⟨c, hcmem, hcmin⟩ := select_min hsel
        have hvmem : (v, (dom2 v).length) ∈ unassignedCounts cw dom2 [] := by
          unfold unassignedCounts
          refine List.mem_map.mpr ⟨v, ?_, rfl⟩
          refine List.mem_filter.mpr ⟨hv, ?_⟩
          simp [alistGet]
        have hc0 : c = 0 := by
          have := hcmin _ hvmem
          simp only [hd2, List.length_nil] at this
          omega
        have hdu : dom2 u = [] := by
          unfold unassignedCounts at hcmem
          obtain ⟨v2, hv2, heq⟩ := List.mem_map.mp hcmem
          rw [Prod.mk.injEq] at heq
          obtain ⟨hv2u, hv2c⟩ := heq
          subst hv2u
          rw [hc0] at hv2c
          exact List.length_eq_zero.mp hv2c
        have hord : order_domain_values cw dom2 [] u = [] := by
          unfold order_domain_values
          rw [hdu]
          rfl
        rw [hord] at hs
        cases fuel2 with
        | zero => simp [btLoop] at hs
        | succ fuel3 =>
          simp only [btLoop, Option.some.injEq, Prod.mk.injEq] at hs
          exact hs.1.symm

theorem c7_amended_witness :
    ((enforce_node_consistency cwIso (initialDomains cwIso)) 0 = []) ∧
    ((none : Option (List (Fin 1 × Word))) = none) :=
  ⟨(c7_amended cwIso 0 (by decide) (by decide)).1,
   (c7_amended cwIso 0 (by decide) (by decide)).2 10 none (by rfl)⟩

theorem c6_witness :
    revise cwTriple domTriple 0 1 = (false, domTriple) :=
  (c6_revise_characterization cwTriple domTriple 0 1).1 rfl

end CrosswordGen
